import Mathlib

/-!
Verification development for the go-synthfs batch engine.

The repository's files contain only usage sketches (docs/explorations); the
engine itself — operation model, dependency validator, execution engine and
reverter — is specified in spec.md. The definitions below are therefore
modelled from the spec (each doc comment says so and names the section they
come from). Paths are modelled as lists of segments, so the string path
"a/f" is the list of segments a, f and parent is dropping the last segment.
-/

namespace SynthFS

/-- A filesystem path, as its list of segments. -/
abbrev Path := List String

/-- Modelled from the spec: parent(path) used by CreateDir's requires (section 3).
A single-segment path has no parent (it lives in the batch's working directory,
assumed to exist). -/
def parent (p : Path) : Option Path :=
  if p.length ≤ 1 then none else some p.dropLast

/-- Modelled from the spec: the filesystem state seen through the Filesystem
Capability (sections 2 and 6): which paths exist as files and as directories,
plus the environmental failure conditions of the error taxonomy (section 7) —
paths on which mutation is denied (permission) and a disk-full flag. -/
structure FS where
  files : List Path
  dirs : List Path
  denied : List Path
  full : Bool
deriving DecidableEq, Repr

/-- Read-only existence query of the Filesystem Capability (section 6). -/
def FS.pathExists (fs : FS) (p : Path) : Bool :=
  decide (p ∈ fs.files) || decide (p ∈ fs.dirs)

/-- Modelled from the spec: the Operation tagged variant (section 3). -/
inductive Operation where
  | createDir (path : Path)
  | copy (src dst : Path)
  | move (src dst : Path)
  | delete (path : Path)
deriving DecidableEq, Repr

/-- Modelled from the spec: declared requires — paths that must exist before
running (table in section 3). -/
def Operation.requires : Operation → List Path
  | .createDir p => (parent p).toList
  | .copy s _ => [s]
  | .move s _ => [s]
  | .delete p => [p]

/-- Modelled from the spec: declared produces — paths that exist after running
(table in section 3). -/
def Operation.produces : Operation → List Path
  | .createDir p => [p]
  | .copy _ d => [d]
  | .move _ d => [d]
  | .delete _ => []

/-- The source path a Move makes disappear ("src no longer exists", section 3). -/
def Operation.moveSrc : Operation → Option Path
  | .move s _ => some s
  | _ => none

/-- Modelled from the spec: a ValidationReport entry, naming the offending
operation by position and the unmet requirement (section 3). -/
structure Violation where
  opIndex : Nat
  missing : Path
deriving DecidableEq, Repr

/-- Modelled from the spec: the validator's working state (section 4.2): the
working set of paths known to exist from earlier operations' produces, plus
the paths a Move's source made disappear (removed overrides the filesystem's
answer, so a later operation depending on the old path is correctly flagged). -/
structure VState where
  known : List Path
  removed : List Path
deriving DecidableEq, Repr

/-- The working set is seeded from nothing (section 4.2). -/
def VState.initial : VState := ⟨[], []⟩

/-- Modelled from the spec: a required path is satisfied if the filesystem
reports it exists or it was added to the working set by an earlier operation's
produces set (section 4.2); a path removed by an earlier Move counts as gone
even when the real filesystem still has it. -/
def satisfied (fs : FS) (st : VState) (p : Path) : Bool :=
  decide (p ∈ st.known) || (fs.pathExists p && !decide (p ∈ st.removed))

/-- Modelled from the spec: after each operation its produces paths are added
to the working set so later operations can depend on it, and a Move's source is
removed from the working set (section 4.2). -/
def stepState (st : VState) (op : Operation) : VState :=
  let known := op.produces ++ st.known
  let removed := st.removed.filter (fun q => decide (q ∉ op.produces))
  match op.moveSrc with
  | some s => ⟨known.filter (fun q => decide (q ≠ s)), s :: removed⟩
  | none => ⟨known, removed⟩

/-- One violation per unmet requirement of one operation (section 4.2). -/
def violationsAt (fs : FS) (st : VState) (i : Nat) (op : Operation) : List Violation :=
  (op.requires.filter (fun p => !satisfied fs st p)).map (fun p => ⟨i, p⟩)

/-- Modelled from the spec: the validator's walk (section 4.2): operations in
order, each unmet requirement recorded but never aborting — the optimistic
working state advances past a violating operation as if its produces appeared. -/
def validateFrom (fs : FS) : Nat → VState → List Operation → List Violation
  | _, _, [] => []
  | i, st, op :: rest => violationsAt fs st i op ++ validateFrom fs (i + 1) (stepState st op) rest

/-- Modelled from the spec: validate() — the Dependency Validator's read-only
pass over a batch (sections 4.2 and 6). -/
def validate (b : List Operation) (fs : FS) : List Violation :=
  validateFrom fs 0 VState.initial b

/-- The validator's working state just before operation i of the batch. -/
def stateAt (b : List Operation) (i : Nat) : VState :=
  (b.take i).foldl stepState VState.initial

/-- Modelled from the spec: the report the spec's words describe — for every
operation of the batch, all of its violations, each computed from the
optimistic working state after the operations before it ("collects all
violations rather than stopping at the first", section 4.2). -/
def allViolations (b : List Operation) (fs : FS) : List Violation :=
  (List.range b.length).flatMap (fun k =>
    match b.get? k with
    | some op => violationsAt fs (stateAt b k) k op
    | none => [])

/-- Modelled from the spec: the primitive filesystem failure modes of the
error taxonomy (section 7): permission, not-found, already-exists, disk-full. -/
inductive IoError where
  | permission
  | notFound
  | alreadyExists
  | diskFull
deriving DecidableEq, Repr

/-- Whether a path is a file or a directory, for Delete snapshots. -/
inductive PathKind where
  | file
  | dir
deriving DecidableEq, Repr

/-- Read-only kind query (isDir of section 6, refined to also tell files). -/
def FS.kindOf (fs : FS) (p : Path) : Option PathKind :=
  if p ∈ fs.dirs then some .dir else if p ∈ fs.files then some .file else none

def FS.removePath (fs : FS) (p : Path) : FS :=
  { fs with files := fs.files.filter (fun q => decide (q ≠ p)),
            dirs := fs.dirs.filter (fun q => decide (q ≠ p)) }

def FS.addFile (fs : FS) (p : Path) : FS :=
  if p ∈ fs.files then fs else { fs with files := p :: fs.files }

def FS.addDir (fs : FS) (p : Path) : FS :=
  if p ∈ fs.dirs then fs else { fs with dirs := p :: fs.dirs }

/-- Modelled from the spec: makeDir primitive of the Filesystem Capability
(section 6), failing with the expected modes of section 7. -/
def FS.makeDir (fs : FS) (p : Path) : Except IoError FS :=
  if p ∈ fs.denied then .error .permission
  else if fs.full then .error .diskFull
  else if fs.pathExists p then .error .alreadyExists
  else .ok { fs with dirs := p :: fs.dirs }

/-- Modelled from the spec: copy primitive of the Filesystem Capability. -/
def FS.copyFile (fs : FS) (s d : Path) : Except IoError FS :=
  if s ∈ fs.denied ∨ d ∈ fs.denied then .error .permission
  else if !fs.pathExists s then .error .notFound
  else if fs.full then .error .diskFull
  else .ok (fs.addFile d)

/-- Modelled from the spec: rename primitive of the Filesystem Capability. -/
def FS.rename (fs : FS) (s d : Path) : Except IoError FS :=
  if s ∈ fs.denied ∨ d ∈ fs.denied then .error .permission
  else if !fs.pathExists s then .error .notFound
  else match fs.kindOf s with
    | some .dir => .ok ((fs.removePath s).addDir d)
    | _ => .ok ((fs.removePath s).addFile d)

/-- Modelled from the spec: remove primitive of the Filesystem Capability. -/
def FS.remove (fs : FS) (p : Path) : Except IoError FS :=
  if p ∈ fs.denied then .error .permission
  else if !fs.pathExists p then .error .notFound
  else .ok (fs.removePath p)

/-- Modelled from the spec: one primitive call through the Filesystem
Capability (section 6); the two query calls are the read-only ones. -/
inductive FSCall where
  | queryExists (p : Path)
  | queryIsDir (p : Path)
  | makeDir (p : Path)
  | copyFile (src dst : Path)
  | rename (src dst : Path)
  | remove (p : Path)
deriving DecidableEq, Repr

def FSCall.readOnly : FSCall → Bool
  | .queryExists _ => true
  | .queryIsDir _ => true
  | _ => false

/-- The effect of one primitive call on the filesystem (a failed mutating
call leaves the filesystem as it was). -/
def applyCall (fs : FS) : FSCall → FS
  | .queryExists _ => fs
  | .queryIsDir _ => fs
  | .makeDir p => match fs.makeDir p with | .ok fs2 => fs2 | .error _ => fs
  | .copyFile s d => match fs.copyFile s d with | .ok fs2 => fs2 | .error _ => fs
  | .rename s d => match fs.rename s d with | .ok fs2 => fs2 | .error _ => fs
  | .remove p => match fs.remove p with | .ok fs2 => fs2 | .error _ => fs

/-- Requirement check as the validator performs it, together with the
primitive calls it issues: filesystem queries are made lazily per requirement
(section 4.2), so a path already in the working set is not queried. -/
def satisfiedCalls (fs : FS) (st : VState) (p : Path) : Bool × List FSCall :=
  if p ∈ st.known then (true, [])
  else (fs.pathExists p && !decide (p ∈ st.removed), [.queryExists p])

/-- The validator's walk instrumented with the list of primitive calls it
issues through the Filesystem Capability. -/
def validateCallsFrom (fs : FS) : Nat → VState → List Operation → List Violation × List FSCall
  | _, _, [] => ([], [])
  | i, st, op :: rest =>
    let checks := op.requires.map (fun p => (p, satisfiedCalls fs st p))
    let viols := (checks.filter (fun x => !x.2.1)).map
      (fun x => (⟨i, x.1⟩ : Violation))
    let calls := checks.flatMap (fun x => x.2.2)
    let next := validateCallsFrom fs (i + 1) (stepState st op) rest
    (viols ++ next.1, calls ++ next.2)

/-- validate() instrumented with the primitive calls it issues. -/
def validateCalls (b : List Operation) (fs : FS) : List Violation × List FSCall :=
  validateCallsFrom fs 0 VState.initial b

/-- Modelled from the spec: why one operation failed (section 7) — the
execution-time precondition re-check failed, or the primitive call failed. -/
inductive FailReason where
  | preconditionUnmet
  | ioError (e : IoError)
deriving DecidableEq, Repr

/-- Modelled from the spec: the outcome of one executed operation (section 3). -/
inductive Outcome where
  | success
  | failed (why : FailReason)
deriving DecidableEq, Repr

/-- Modelled from the spec: the opaque UndoToken captured before mutation
(sections 3 and 4.4): what the engine would have to invert. -/
inductive UndoToken where
  | noUndo
  | createdDir (p : Path)
  | copied (dst : Path)
  | movedTo (src dst : Path)
  | deletedPath (p : Path) (snap : Option PathKind)
deriving DecidableEq, Repr

/-- Modelled from the spec: ExecutedOperation (section 3) — the source
Operation referenced by position, start and end timestamps, the outcome and
the UndoToken. -/
structure ExecutedOperation where
  opIndex : Nat
  startTime : Nat
  endTime : Nat
  outcome : Outcome
  undo : UndoToken
deriving DecidableEq, Repr

inductive Status where
  | success
  | partialFailure
deriving DecidableEq, Repr

/-- Modelled from the spec: Result — the ordered list of ExecutedOperation
(section 3); the overall status is derived from the outcomes. -/
structure Result where
  ops : List ExecutedOperation
deriving DecidableEq, Repr

/-- Modelled from the spec: overall status, Success iff all succeeded,
PartialFailure otherwise (section 3). -/
def Result.status (r : Result) : Status :=
  if r.ops.all (fun e => decide (e.outcome = Outcome.success)) then .success
  else .partialFailure

/-- Modelled from the spec: the configurable failure policy (section 4.3):
stop on first failure, or continue through failures. -/
inductive Policy where
  | stop
  | cont
deriving DecidableEq, Repr

/-- The execution-time precondition re-check (step 1 of section 4.3). -/
def preOk (fs : FS) (op : Operation) : Bool :=
  op.requires.all fs.pathExists

/-- Modelled from the spec: capture the UndoToken reflecting the current state
of the affected paths (step 2 of section 4.3); a Delete snapshots only when
snapshotting is enabled (section 4.4). -/
def captureUndo (snap : Bool) (fs : FS) : Operation → UndoToken
  | .createDir p => .createdDir p
  | .copy _ d => .copied d
  | .move s d => .movedTo s d
  | .delete p => .deletedPath p (if snap then fs.kindOf p else none)

/-- The primitive call an operation maps to (section 6). -/
def primitive (fs : FS) : Operation → Except IoError FS
  | .createDir p => fs.makeDir p
  | .copy s d => fs.copyFile s d
  | .move s d => fs.rename s d
  | .delete p => fs.remove p

/-- Modelled from the spec: the per-operation protocol of section 4.3: re-check
preconditions, capture the UndoToken, invoke the primitive, and record the
outcome; a primitive failure becomes a Failed outcome, never an escaping
error. Re-running CreateDir on an existing directory is success (section 4.3). -/
def execStep (snap : Bool) (fs : FS) (op : Operation) : Outcome × UndoToken × FS :=
  match op with
  | .createDir p =>
    if fs.pathExists p then (.success, .noUndo, fs)
    else if !preOk fs op then (.failed .preconditionUnmet, .noUndo, fs)
    else match fs.makeDir p with
      | .ok fs2 => (.success, .createdDir p, fs2)
      | .error e => (.failed (.ioError e), .createdDir p, fs)
  | _ =>
    if !preOk fs op then (.failed .preconditionUnmet, .noUndo, fs)
    else
      let tok := captureUndo snap fs op
      match primitive fs op with
      | .ok fs2 => (.success, tok, fs2)
      | .error e => (.failed (.ioError e), tok, fs)

/-- Whether the failure policy aborts the remaining operations after this
outcome (section 4.3): only the stop policy does, and only on a failure. -/
def stopAfter (pol : Policy) (out : Outcome) : Bool :=
  match pol, out with
  | .stop, .failed _ => true
  | _, _ => false

/-- Modelled from the spec: the Execution Engine's walk (section 4.3):
operations strictly in order, one ExecutedOperation recorded per operation
attempted, the failure policy applied uniformly; under stop, unexecuted
operations are simply absent from the list. -/
def execGo (pol : Policy) (snap : Bool) : FS → Nat → Nat → List Operation →
    List ExecutedOperation × FS
  | fs, _, _, [] => ([], fs)
  | fs, t, i, op :: rest =>
    let s := execStep snap fs op
    let e : ExecutedOperation := ⟨i, t, t + 1, s.1, s.2.1⟩
    if stopAfter pol s.1 then ([e], s.2.2)
    else
      let r := execGo pol snap s.2.2 (t + 2) (i + 1) rest
      (e :: r.1, r.2)

/-- Modelled from the spec: execute(policy) (sections 4.3 and 6): runs the
batch through the Filesystem Capability and always hands back a Result
together with the final filesystem state. -/
def execute (pol : Policy) (snap : Bool) (b : List Operation) (fs : FS) : Result × FS :=
  let r := execGo pol snap fs 0 0 b
  (⟨r.1⟩, r.2)

/-- Modelled from the spec: the outcome of reverting one executed operation
(section 4.4): success, a failed inversion, a non-revertible Delete, or a
skip recorded as a revert-warning. -/
inductive RevertOutcome where
  | success
  | failed (e : IoError)
  | nonRevertible
  | skipped
deriving DecidableEq, Repr

/-- One entry of the RevertReport, mirroring ExecutedOperation's shape
(section 4.4). -/
structure RevertItem where
  opIndex : Nat
  outcome : RevertOutcome
deriving DecidableEq, Repr

/-- Whether a directory is empty: no existing path has it as parent. -/
def dirEmpty (fs : FS) (d : Path) : Bool :=
  (fs.files ++ fs.dirs).all (fun q => decide (parent q ≠ some d))

/-- Modelled from the spec: per-variant inversion (section 4.4): CreateDir
removes the directory only if still present and empty (else a warning skip);
Copy removes the destination if it is still there (else a warning skip); Move
moves the destination back, failing loudly if it no longer exists; Delete
restores from the snapshot if one was taken, else it is non-revertible. -/
def undoStep (fs : FS) : UndoToken → RevertOutcome × FS
  | .noUndo => (.skipped, fs)
  | .createdDir p =>
    if fs.pathExists p then
      if dirEmpty fs p then
        match fs.remove p with
        | .ok fs2 => (.success, fs2)
        | .error e => (.failed e, fs)
      else (.skipped, fs)
    else (.skipped, fs)
  | .copied d =>
    if fs.pathExists d then
      match fs.remove d with
      | .ok fs2 => (.success, fs2)
      | .error e => (.failed e, fs)
    else (.skipped, fs)
  | .movedTo s d =>
    if fs.pathExists d then
      match fs.rename d s with
      | .ok fs2 => (.success, fs2)
      | .error e => (.failed e, fs)
    else (.failed IoError.notFound, fs)
  | .deletedPath p snap =>
    match snap with
    | some PathKind.dir => (.success, fs.addDir p)
    | some PathKind.file => (.success, fs.addFile p)
    | none => (.nonRevertible, fs)

def revertGo (fs : FS) : List ExecutedOperation → List RevertItem × FS
  | [] => ([], fs)
  | e :: rest =>
    let s := undoStep fs e.undo
    let r := revertGo s.2 rest
    (⟨e.opIndex, s.1⟩ :: r.1, r.2)

/-- Modelled from the spec: revert(result) replays the UndoTokens in strict
reverse order of the ExecutedOperation list, aggregating per-item outcomes
and never raising on an individual failure (section 4.4). -/
def revert (r : Result) (fs : FS) : List RevertItem × FS :=
  revertGo fs r.ops.reverse

/-- Modelled from the spec: the handle append returns — a separate
handle/index referring to the recorded immutable operation (sections 6 and 9). -/
structure OperationHandle where
  index : Nat
deriving DecidableEq, Repr

/-- Modelled from the spec: a Batch, the ordered append-only sequence of
Operations (section 3). -/
structure Batch where
  ops : List Operation
deriving DecidableEq, Repr

/-- Modelled from the spec: append(operation) -> OperationHandle (section 6):
the operation value is recorded and a positional handle is returned. -/
def Batch.append (b : Batch) (op : Operation) : Batch × OperationHandle :=
  ({ ops := b.ops ++ [op] }, ⟨b.ops.length⟩)

/-- Look a handle up in a batch: the recorded declaration it refers to. -/
def Batch.resolve (b : Batch) (h : OperationHandle) : Option Operation :=
  b.ops.get? h.index

/-- Concrete path a. -/
def segA : Path := ["a"]

/-- Concrete path b. -/
def segB : Path := ["b"]

/-- Concrete path f. -/
def segF : Path := ["f"]

/-- Concrete path a/f. -/
def segAF : Path := ["a", "f"]

/-- An empty filesystem with no failure conditions. -/
def fsEmpty : FS := ⟨[], [], [], false⟩

/-- A filesystem holding the single file a. -/
def fsWithA : FS := ⟨[segA], [], [], false⟩

/-- A filesystem holding the single file f. -/
def fsWithF : FS := ⟨[segF], [], [], false⟩

/-- Batch whose operation 2 requires a path produced by operation 0 but moved
away by operation 1. -/
def counterBatch : List Operation := [.createDir segA, .move segA segB, .delete segA]

/-- Batch producing a at operation 0 and requiring it at operation 1. -/
def producerBatch : List Operation := [.createDir segA, .delete segA]

/-- Batch moving a away at operation 0 and requiring it at operation 1. -/
def moveBatch : List Operation := [.move segA segB, .delete segA]

/-- The round-trip batch of the spec's property list: CreateDir a, then
Copy f to a/f. -/
def roundBatch : List Operation := [.createDir segA, .copy segF segAF]

/-- A batch whose single operation fails its precondition re-check. -/
def failBatch : List Operation := [.copy segA segB]

theorem validateFrom_eq_flatMap (l : List Operation) (fs : FS) :
    ∀ (i : Nat) (st : VState),
    validateFrom fs i st l = (List.range l.length).flatMap (fun k =>
      match l.get? k with
      | some op => violationsAt fs ((l.take k).foldl stepState st) (i + k) op
      | none => []) := by
  induction l with
  | nil => intro i st; simp [validateFrom]
  | cons op rest ih =>
    intro i st
    rw [validateFrom, List.length_cons, List.range_succ_eq_map, List.flatMap_cons]
    have h0 : (match (op :: rest).get? 0 with
        | some o => violationsAt fs (((op :: rest).take 0).foldl stepState st) (i + 0) o
        | none => ([] : List Violation)) = violationsAt fs st i op := by
      simp [List.take]
    rw [h0]
    congr 1
    rw [List.flatMap_map, ih (i + 1) (stepState st op)]
    apply List.flatMap_congr
    intro k _
    have htake : (op :: rest).take (Nat.succ k) = op :: rest.take k := rfl
    have hget : (op :: rest).get? (Nat.succ k) = rest.get? k := rfl
    simp only [Function.comp, htake, hget, List.foldl_cons]
    have harith : i + Nat.succ k = i + 1 + k := by omega
    rw [harith]

theorem validate_eq_allViolations (b : List Operation) (fs : FS) :
    validate b fs = allViolations b fs := by
  rw [validate, allViolations, validateFrom_eq_flatMap]
  apply List.flatMap_congr
  intro k _
  simp [stateAt, VState.initial]

theorem mem_violationsAt (fs : FS) (st : VState) (i k : Nat) (op : Operation) (p : Path) :
    (⟨i, p⟩ : Violation) ∈ violationsAt fs st k op ↔
      i = k ∧ p ∈ op.requires ∧ satisfied fs st p = false := by
  simp only [violationsAt, List.mem_map, List.mem_filter]
  constructor
  · rintro ⟨q, ⟨hq, hsat⟩, heq⟩
    have h1 : k = i := congrArg Violation.opIndex heq
    have h2 : q = p := congrArg Violation.missing heq
    subst h1; subst h2
    exact ⟨rfl, hq, by simpa using hsat⟩
  · rintro ⟨h1, h2, h3⟩
    subst h1
    exact ⟨p, ⟨h2, by simp [h3]⟩, rfl⟩

theorem mem_validate_iff (b : List Operation) (fs : FS) (i : Nat) (p : Path) :
    (⟨i, p⟩ : Violation) ∈ validate b fs ↔
      ∃ op, b.get? i = some op ∧ p ∈ op.requires ∧ satisfied fs (stateAt b i) p = false := by
  rw [validate_eq_allViolations, allViolations, List.mem_flatMap]
  constructor
  · rintro ⟨k, hk, hmem⟩
    cases hop : b.get? k with
    | none => rw [hop] at hmem; simp at hmem
    | some op =>
      rw [hop] at hmem
      rcases (mem_violationsAt fs (stateAt b k) i k op p).mp hmem with ⟨hik, hreq, hsat⟩
      subst hik
      exact ⟨op, hop, hreq, hsat⟩
  · rintro ⟨op, hop, hreq, hsat⟩
    have hlen : i < b.length := by
      rcases List.get?_eq_some.mp hop with ⟨h, _⟩
      exact h
    refine ⟨i, List.mem_range.mpr hlen, ?_⟩
    rw [hop]
    exact (mem_violationsAt fs (stateAt b i) i i op p).mpr ⟨rfl, hreq, hsat⟩

theorem satisfied_true_of_known (fs : FS) (st : VState) (p : Path) (hk : p ∈ st.known) :
    satisfied fs st p = true := by
  simp [satisfied, hk]

theorem satisfied_false_of_notknown_notfs (fs : FS) (st : VState) (p : Path)
    (hk : p ∉ st.known) (hfs : fs.pathExists p = false) : satisfied fs st p = false := by
  simp [satisfied, hk, hfs]

theorem satisfied_false_of_removed (fs : FS) (st : VState) (p : Path)
    (hk : p ∉ st.known) (hr : p ∈ st.removed) : satisfied fs st p = false := by
  simp [satisfied, hk, hr]

theorem known_step_mem (st : VState) (op : Operation) (p : Path)
    (h : p ∈ (stepState st op).known) : p ∈ op.produces ∨ p ∈ st.known := by
  cases hms : op.moveSrc with
  | none => simp [stepState, hms] at h; exact h
  | some s =>
    simp [stepState, hms, List.mem_filter] at h
    rcases h with ⟨h1, _⟩ | ⟨h2, _⟩
    · exact Or.inl h1
    · exact Or.inr h2

theorem known_step_of_produces (st : VState) (op : Operation) (p : Path)
    (hp : p ∈ op.produces) (hnm : op.moveSrc ≠ some p) : p ∈ (stepState st op).known := by
  cases hms : op.moveSrc with
  | none => simp [stepState, hms]; exact Or.inl hp
  | some s =>
    have hne : p ≠ s := by
      intro hps; subst hps; exact hnm hms
    simp [stepState, hms, List.mem_filter]
    exact Or.inl ⟨hp, hne⟩

theorem known_step_preserve (st : VState) (op : Operation) (p : Path)
    (hp : p ∈ st.known) (hnm : op.moveSrc ≠ some p) : p ∈ (stepState st op).known := by
  cases hms : op.moveSrc with
  | none => simp [stepState, hms]; exact Or.inr hp
  | some s =>
    have hne : p ≠ s := by
      intro hps; subst hps; exact hnm hms
    simp [stepState, hms, List.mem_filter]
    exact Or.inr ⟨hp, hne⟩

theorem step_move_gone (st : VState) (s d : Path) :
    s ∉ (stepState st (.move s d)).known ∧ s ∈ (stepState st (.move s d)).removed := by
  constructor
  · intro h
    simp [stepState, Operation.moveSrc, List.mem_filter] at h
  · simp [stepState, Operation.moveSrc]

theorem step_notknown_removed (st : VState) (op : Operation) (s : Path)
    (hk : s ∉ st.known) (hr : s ∈ st.removed) (hp : s ∉ op.produces) :
    s ∉ (stepState st op).known ∧ s ∈ (stepState st op).removed := by
  cases hms : op.moveSrc with
  | none =>
    constructor
    · intro h
      rcases known_step_mem st op s h with h1 | h2
      · exact hp h1
      · exact hk h2
    · simp [stepState, hms, List.mem_filter]
      exact ⟨hr, hp⟩
  | some m =>
    constructor
    · intro h
      rcases known_step_mem st op s h with h1 | h2
      · exact hp h1
      · exact hk h2
    · simp [stepState, hms, List.mem_filter]
      exact Or.inr ⟨hr, hp⟩

theorem stateAt_succ (b : List Operation) (i : Nat) (op : Operation)
    (hop : b.get? i = some op) : stateAt b (i + 1) = stepState (stateAt b i) op := by
  unfold stateAt
  have hget : b[i]? = some op := by rw [← List.get?_eq_getElem?]; exact hop
  rw [List.take_succ, hget]
  simp [List.foldl_append]

theorem foldl_known_sub (l : List Operation) : ∀ (st : VState) (p : Path),
    p ∈ (l.foldl stepState st).known → p ∈ st.known ∨ ∃ op ∈ l, p ∈ op.produces := by
  induction l with
  | nil => intro st p h; rw [List.foldl_nil] at h; exact Or.inl h
  | cons op rest ih =>
    intro st p h
    rw [List.foldl_cons] at h
    rcases ih (stepState st op) p h with h1 | ⟨op2, hmem, hprod⟩
    · rcases known_step_mem st op p h1 with h2 | h3
      · exact Or.inr ⟨op, List.mem_cons_self op rest, h2⟩
      · exact Or.inl h3
    · exact Or.inr ⟨op2, List.mem_cons_of_mem op hmem, hprod⟩

theorem stateAt_known_sub (b : List Operation) (i : Nat) (p : Path)
    (h : p ∈ (stateAt b i).known) :
    ∃ j op, j < i ∧ b.get? j = some op ∧ p ∈ op.produces := by
  rcases foldl_known_sub (b.take i) VState.initial p h with h1 | ⟨op, hmem, hprod⟩
  · simp [VState.initial] at h1
  · rcases List.mem_iff_get?.mp hmem with ⟨j, hj⟩
    rcases List.get?_eq_some.mp hj with ⟨hjlen, _⟩
    have hji : j < i := by
      have := List.length_take i b
      omega
    refine ⟨j, op, hji, ?_, hprod⟩
    rw [← List.get?_take hji]
    exact hj

theorem known_through (b : List Operation) (p : Path) (j i : Nat) (opj : Operation)
    (hji : j < i) (hilen : i ≤ b.length)
    (hj : b.get? j = some opj) (hprod : p ∈ opj.produces)
    (hnomove : ∀ m opm, j ≤ m → m < i → b.get? m = some opm → opm.moveSrc ≠ some p) :
    p ∈ (stateAt b i).known := by
  have main : ∀ n (_ : j + 1 ≤ n), n ≤ i → p ∈ (stateAt b n).known := by
    refine Nat.le_induction ?_ ?_
    · intro _
      rw [stateAt_succ b j opj hj]
      exact known_step_of_produces _ _ _ hprod (hnomove j opj (Nat.le_refl j) hji hj)
    · intro n hn ihn hni
      have hn_i : n < i := hni
      have hlt : n < b.length := Nat.lt_of_lt_of_le hn_i hilen
      have hget : b.get? n = some (b.get ⟨n, hlt⟩) := List.get?_eq_get hlt
      rw [stateAt_succ b n _ hget]
      exact known_step_preserve _ _ _ (ihn (Nat.le_of_lt hn_i))
        (hnomove n _ (by omega) hn_i hget)
  exact main i hji (Nat.le_refl i)

theorem move_gone_through (b : List Operation) (s d : Path) (i j : Nat)
    (hi : b.get? i = some (.move s d)) (hij : i < j) (hjlen : j ≤ b.length)
    (hnoprod : ∀ m opm, i < m → m < j → b.get? m = some opm → s ∉ opm.produces) :
    s ∉ (stateAt b j).known ∧ s ∈ (stateAt b j).removed := by
  have main : ∀ n (_ : i + 1 ≤ n), n ≤ j →
      s ∉ (stateAt b n).known ∧ s ∈ (stateAt b n).removed := by
    refine Nat.le_induction ?_ ?_
    · intro _
      rw [stateAt_succ b i _ hi]
      exact step_move_gone (stateAt b i) s d
    · intro n hn ihn hnj
      have hn_j : n < j := hnj
      have hlt : n < b.length := Nat.lt_of_lt_of_le hn_j hjlen
      have hget : b.get? n = some (b.get ⟨n, hlt⟩) := List.get?_eq_get hlt
      rcases ihn (Nat.le_of_lt hn_j) with ⟨hk, hr⟩
      rw [stateAt_succ b n _ hget]
      exact step_notknown_removed _ _ _ hk hr (hnoprod n _ (by omega) hn_j hget)
  exact main j hij (Nat.le_refl j)

/-- C4: validate() records a violation for each unmet requirement of each
operation and never aborts at the first violation: the report it returns is
exactly the concatenation, over every operation of the batch, of that
operation's violations computed from the optimistic working state, so it
contains all reachable violations of the whole batch. -/
theorem validate_collects_all_violations (b : List Operation) (fs : FS) :
    validate b fs = allViolations b fs :=
  validate_eq_allViolations b fs

/-- C5 counterexample: the claim's converse — a required path produced by some
earlier operation is always satisfied — is false: in counterBatch, operation 0
produces a and operation 2 requires a, yet validate still reports the
violation at position 2, because the Move at position 1 removed a. -/
theorem validate_earlier_producer_counterexample :
    counterBatch.get? 0 = some (.createDir segA) ∧
    segA ∈ (Operation.createDir segA).produces ∧
    counterBatch.get? 2 = some (.delete segA) ∧
    segA ∈ (Operation.delete segA).requires ∧
    (⟨2, segA⟩ : Violation) ∈ validate counterBatch fsEmpty := by
  refine ⟨rfl, ?_, rfl, ?_, ?_⟩ <;> decide

/-- C5 (amended): if operation i requires a path that neither exists on the
filesystem nor is produced by any earlier operation, validate() reports a
violation at position i; conversely a required path produced by some earlier
operation j < i is satisfied provided no operation from j up to i is a Move
whose source is that path (produces-paths are added to the working set only
after their operation is processed). -/
theorem validate_ordering_amended (b : List Operation) (fs : FS) (i : Nat)
    (op : Operation) (p : Path)
    (hop : b.get? i = some op) (hreq : p ∈ op.requires) :
    (fs.pathExists p = false →
      (∀ j opj, j < i → b.get? j = some opj → p ∉ opj.produces) →
      (⟨i, p⟩ : Violation) ∈ validate b fs) ∧
    (∀ j opj, j < i → b.get? j = some opj → p ∈ opj.produces →
      (∀ m opm, j ≤ m → m < i → b.get? m = some opm → opm.moveSrc ≠ some p) →
      (⟨i, p⟩ : Violation) ∉ validate b fs) := by
  constructor
  · intro hfs hbefore
    have hk : p ∉ (stateAt b i).known := by
      intro hmem
      rcases stateAt_known_sub b i p hmem with ⟨j, opj, hji, hj, hprod⟩
      exact hbefore j opj hji hj hprod
    exact (mem_validate_iff b fs i p).mpr
      ⟨op, hop, hreq, satisfied_false_of_notknown_notfs fs _ p hk hfs⟩
  · intro j opj hji hj hprod hnomove hmem
    rcases (mem_validate_iff b fs i p).mp hmem with ⟨op2, _, _, hsat⟩
    have hilen : i ≤ b.length := by
      rcases List.get?_eq_some.mp hop with ⟨h, _⟩
      omega
    have hk : p ∈ (stateAt b i).known :=
      known_through b p j i opj hji hilen hj hprod hnomove
    rw [satisfied_true_of_known fs _ p hk] at hsat
    exact Bool.noConfusion hsat

/-- C5 witness: the amended theorem applied to producerBatch at position 1,
requirement a, on the empty filesystem. -/
theorem validate_ordering_amended_witness :
    (producerBatch.get? 1 = some (.delete segA) ∧
      segA ∈ (Operation.delete segA).requires) ∧
    ((fsEmpty.pathExists segA = false →
      (∀ j opj, j < 1 → producerBatch.get? j = some opj → segA ∉ opj.produces) →
      (⟨1, segA⟩ : Violation) ∈ validate producerBatch fsEmpty) ∧
    (∀ j opj, j < 1 → producerBatch.get? j = some opj → segA ∈ opj.produces →
      (∀ m opm, j ≤ m → m < 1 → producerBatch.get? m = some opm →
        opm.moveSrc ≠ some segA) →
      (⟨1, segA⟩ : Violation) ∉ validate producerBatch fsEmpty)) :=
  ⟨⟨rfl, by decide⟩,
    validate_ordering_amended producerBatch fsEmpty 1 (.delete segA) segA rfl (by decide)⟩

/-- C6: after a Move(src, dst) at position i, the validator treats src as no
longer existing: any later operation j that requires src is reported as a
violation, unless some operation strictly between i and j re-produces src —
even when src still exists on the real filesystem at validation time. -/
theorem move_source_flagged (b : List Operation) (fs : FS) (s d : Path)
    (i j : Nat) (opj : Operation)
    (hi : b.get? i = some (.move s d)) (hij : i < j)
    (hj : b.get? j = some opj) (hreq : s ∈ opj.requires)
    (hnoprod : ∀ m opm, i < m → m < j → b.get? m = some opm → s ∉ opm.produces) :
    (⟨j, s⟩ : Violation) ∈ validate b fs := by
  have hjlen : j ≤ b.length := by
    rcases List.get?_eq_some.mp hj with ⟨h, _⟩
    omega
  rcases move_gone_through b s d i j hi hij hjlen hnoprod with ⟨hk, hr⟩
  exact (mem_validate_iff b fs j s).mpr
    ⟨opj, hj, hreq, satisfied_false_of_removed fs _ s hk hr⟩

/-- C6 witness: in moveBatch the Move of a at position 0 makes the Delete of a
at position 1 a violation, although a exists on the real filesystem. -/
theorem move_source_flagged_witness :
    (moveBatch.get? 0 = some (.move segA segB) ∧
      moveBatch.get? 1 = some (.delete segA) ∧
      segA ∈ (Operation.delete segA).requires ∧
      fsWithA.pathExists segA = true) ∧
    (⟨1, segA⟩ : Violation) ∈ validate moveBatch fsWithA :=
  ⟨⟨rfl, rfl, by decide, by decide⟩,
    move_source_flagged moveBatch fsWithA segA segB 0 1 (.delete segA) rfl
      (by decide) rfl (by decide)
      (fun m opm h1 h2 _ =>
        absurd (Nat.lt_of_lt_of_le h1 (Nat.le_of_lt_succ h2)) (Nat.lt_irrefl 0))⟩

/-- C8: validation is a deterministic function of the batch and the filesystem
state at call time — two calls on the same batch with no filesystem change in
between return identical reports. -/
theorem validate_deterministic (b1 b2 : List Operation) (fs1 fs2 : FS)
    (hb : b1 = b2) (hfs : fs1 = fs2) : validate b1 fs1 = validate b2 fs2 := by
  subst hb
  subst hfs
  rfl

/-- C8 witness: the determinism theorem applied to moveBatch on fsWithA. -/
theorem validate_deterministic_witness :
    (moveBatch = moveBatch ∧ fsWithA = fsWithA) ∧
      validate moveBatch fsWithA = validate moveBatch fsWithA :=
  ⟨⟨rfl, rfl⟩, validate_deterministic moveBatch moveBatch fsWithA fsWithA rfl rfl⟩

theorem satisfiedCalls_fst (fs : FS) (st : VState) (p : Path) :
    (satisfiedCalls fs st p).1 = satisfied fs st p := by
  by_cases h : p ∈ st.known
  · simp [satisfiedCalls, satisfied, h]
  · simp [satisfiedCalls, satisfied, h]

theorem validateCallsFrom_queries (fs : FS) :
    ∀ (l : List Operation) (i : Nat) (st : VState),
    ∀ c ∈ (validateCallsFrom fs i st l).2, ∃ p, c = FSCall.queryExists p := by
  intro l
  induction l with
  | nil => intro i st c hc; simp [validateCallsFrom] at hc
  | cons op rest ih =>
    intro i st c hc
    simp only [validateCallsFrom, List.mem_append] at hc
    rcases hc with hc | hc
    · rcases List.mem_flatMap.mp hc with ⟨x, hx, hcx⟩
      rcases List.mem_map.mp hx with ⟨q, _, hq⟩
      subst hq
      by_cases hk : q ∈ st.known
      · simp [satisfiedCalls, hk] at hcx
      · simp [satisfiedCalls, hk] at hcx
        exact ⟨q, hcx⟩
    · exact ih (i + 1) (stepState st op) c hc

theorem foldl_queries_id (calls : List FSCall) :
    ∀ (fs : FS), (∀ c ∈ calls, ∃ p, c = FSCall.queryExists p) →
    calls.foldl applyCall fs = fs := by
  induction calls with
  | nil => intro fs _; rfl
  | cons c rest ih =>
    intro fs h
    rcases h c (List.mem_cons_self c rest) with ⟨p, hp⟩
    subst hp
    rw [List.foldl_cons]
    exact ih fs (fun c2 hc2 => h c2 (List.mem_cons_of_mem _ hc2))

theorem checks_viols (fs : FS) (st : VState) (i : Nat) :
    ∀ (rs : List Path),
    (((rs.map (fun p => (p, satisfiedCalls fs st p))).filter
        (fun x => !x.2.1)).map (fun x => (⟨i, x.1⟩ : Violation))) =
      (rs.filter (fun p => !satisfied fs st p)).map (fun p => (⟨i, p⟩ : Violation)) := by
  intro rs
  induction rs with
  | nil => rfl
  | cons q qs ih =>
    simp only [List.map_cons, List.filter_cons, satisfiedCalls_fst]
    cases h : satisfied fs st q with
    | false => simp only [h, Bool.not_false, if_pos, List.map_cons, ih]
    | true => simp only [h, Bool.not_true, if_neg, ih]; simp [ih]

theorem validateCallsFrom_fst (fs : FS) :
    ∀ (l : List Operation) (i : Nat) (st : VState),
    (validateCallsFrom fs i st l).1 = validateFrom fs i st l := by
  intro l
  induction l with
  | nil => intro i st; rfl
  | cons op rest ih =>
    intro i st
    simp only [validateCallsFrom, validateFrom, violationsAt]
    rw [checks_viols fs st i op.requires, ih (i + 1) (stepState st op)]

/-- C9: validate() leaves the filesystem unchanged: every primitive call it
issues through the Filesystem Capability is a read-only query, replaying its
call trace on the filesystem returns the filesystem unchanged, and the
instrumented validator computes the same report as validate(). -/
theorem validate_never_mutates (b : List Operation) (fs : FS) :
    ((validateCalls b fs).2.all FSCall.readOnly = true) ∧
    ((validateCalls b fs).2.foldl applyCall fs = fs) ∧
    ((validateCalls b fs).1 = validate b fs) := by
  have hq := validateCallsFrom_queries fs b 0 VState.initial
  refine ⟨?_, ?_, ?_⟩
  · rw [List.all_eq_true]
    intro c hc
    rcases hq c hc with ⟨p, hp⟩
    subst hp
    rfl
  · exact foldl_queries_id _ fs hq
  · exact validateCallsFrom_fst fs b 0 VState.initial

theorem stopAfter_success (pol : Policy) : stopAfter pol .success = false := by
  cases pol <;> rfl

theorem stopAfter_true (pol : Policy) (out : Outcome) (h : stopAfter pol out = true) :
    ∃ why, out = .failed why := by
  cases out with
  | failed why => exact ⟨why, rfl⟩
  | success => rw [stopAfter_success] at h; exact Bool.noConfusion h

theorem stopAfter_stop_false (out : Outcome) (h : stopAfter Policy.stop out = false) :
    out = .success := by
  cases out with
  | success => rfl
  | failed why => exact Bool.noConfusion h

theorem execGo_nil (pol : Policy) (snap : Bool) (fs : FS) (t i : Nat) :
    execGo pol snap fs t i [] = ([], fs) := rfl

theorem execGo_cons_stop (pol : Policy) (snap : Bool) (fs : FS) (t i : Nat)
    (op : Operation) (rest : List Operation)
    (h : stopAfter pol (execStep snap fs op).1 = true) :
    execGo pol snap fs t i (op :: rest) =
      ([⟨i, t, t + 1, (execStep snap fs op).1, (execStep snap fs op).2.1⟩],
        (execStep snap fs op).2.2) := by
  simp [execGo, h]

theorem execGo_cons_go (pol : Policy) (snap : Bool) (fs : FS) (t i : Nat)
    (op : Operation) (rest : List Operation)
    (h : stopAfter pol (execStep snap fs op).1 = false) :
    execGo pol snap fs t i (op :: rest) =
      (⟨i, t, t + 1, (execStep snap fs op).1, (execStep snap fs op).2.1⟩ ::
          (execGo pol snap (execStep snap fs op).2.2 (t + 2) (i + 1) rest).1,
        (execGo pol snap (execStep snap fs op).2.2 (t + 2) (i + 1) rest).2) := by
  simp [execGo, h]

theorem execute_ops (pol : Policy) (snap : Bool) (b : List Operation) (fs : FS) :
    (execute pol snap b fs).1.ops = (execGo pol snap fs 0 0 b).1 := rfl

theorem execGo_all_success_length (pol : Policy) (snap : Bool) :
    ∀ (l : List Operation) (fs : FS) (t i : Nat),
    (∀ e ∈ (execGo pol snap fs t i l).1, e.outcome = .success) →
    (execGo pol snap fs t i l).1.length = l.length := by
  intro l
  induction l with
  | nil => intro fs t i _; rw [execGo_nil]; rfl
  | cons op rest ih =>
    intro fs t i hall
    cases hstop : stopAfter pol (execStep snap fs op).1 with
    | true =>
      exfalso
      rcases stopAfter_true pol _ hstop with ⟨why, hwhy⟩
      have hmem : (⟨i, t, t + 1, (execStep snap fs op).1, (execStep snap fs op).2.1⟩ :
          ExecutedOperation) ∈ (execGo pol snap fs t i (op :: rest)).1 := by
        rw [execGo_cons_stop pol snap fs t i op rest hstop]
        exact List.mem_cons_self _ _
      have hout := hall _ hmem
      rw [hwhy] at hout
      exact Outcome.noConfusion hout
    | false =>
      rw [execGo_cons_go pol snap fs t i op rest hstop] at hall ⊢
      have hrec := ih (execStep snap fs op).2.2 (t + 2) (i + 1)
        (fun e he => hall e (List.mem_cons_of_mem _ he))
      simp [hrec]

theorem execGo_opIndex (pol : Policy) (snap : Bool) :
    ∀ (l : List Operation) (fs : FS) (t i j : Nat) (e : ExecutedOperation),
    (execGo pol snap fs t i l).1.get? j = some e → e.opIndex = i + j := by
  intro l
  induction l with
  | nil =>
    intro fs t i j e h
    rw [execGo_nil] at h
    exact Option.noConfusion h
  | cons op rest ih =>
    intro fs t i j e h
    cases hstop : stopAfter pol (execStep snap fs op).1 with
    | true =>
      rw [execGo_cons_stop pol snap fs t i op rest hstop] at h
      cases j with
      | zero =>
        have he : e = ⟨i, t, t + 1, (execStep snap fs op).1, (execStep snap fs op).2.1⟩ :=
          (Option.some.injEq _ _ ▸ h).symm
        rw [he]
        rfl
      | succ j => exact Option.noConfusion h
    | false =>
      rw [execGo_cons_go pol snap fs t i op rest hstop] at h
      cases j with
      | zero =>
        have he : e = ⟨i, t, t + 1, (execStep snap fs op).1, (execStep snap fs op).2.1⟩ :=
          (Option.some.injEq _ _ ▸ h).symm
        rw [he]
        rfl
      | succ j =>
        have := ih (execStep snap fs op).2.2 (t + 2) (i + 1) j e h
        omega

theorem execGo_stop_failed_last (snap : Bool) :
    ∀ (l : List Operation) (fs : FS) (t i j : Nat) (e : ExecutedOperation)
      (why : FailReason),
    (execGo .stop snap fs t i l).1.get? j = some e → e.outcome = .failed why →
    (execGo .stop snap fs t i l).1.length = j + 1 := by
  intro l
  induction l with
  | nil =>
    intro fs t i j e why h _
    rw [execGo_nil] at h
    exact Option.noConfusion h
  | cons op rest ih =>
    intro fs t i j e why h hfail
    cases hstop : stopAfter .stop (execStep snap fs op).1 with
    | true =>
      rw [execGo_cons_stop .stop snap fs t i op rest hstop] at h ⊢
      cases j with
      | zero => rfl
      | succ j => exact Option.noConfusion h
    | false =>
      have hsucc := stopAfter_stop_false _ hstop
      rw [execGo_cons_go .stop snap fs t i op rest hstop] at h ⊢
      cases j with
      | zero =>
        exfalso
        have he : e = ⟨i, t, t + 1, (execStep snap fs op).1, (execStep snap fs op).2.1⟩ :=
          (Option.some.injEq _ _ ▸ h).symm
        rw [he] at hfail
        simp only [hsucc] at hfail
        exact Outcome.noConfusion hfail
      | succ j =>
        have := ih (execStep snap fs op).2.2 (t + 2) (i + 1) j e why h hfail
        simp [this]

theorem execGo_length_or_failed (pol : Policy) (snap : Bool) :
    ∀ (l : List Operation) (fs : FS) (t i : Nat),
    (execGo pol snap fs t i l).1.length = l.length ∨
      ∃ e ∈ (execGo pol snap fs t i l).1, e.outcome ≠ .success := by
  intro l
  induction l with
  | nil => intro fs t i; exact Or.inl rfl
  | cons op rest ih =>
    intro fs t i
    cases hstop : stopAfter pol (execStep snap fs op).1 with
    | true =>
      right
      rcases stopAfter_true pol _ hstop with ⟨why, hwhy⟩
      refine ⟨⟨i, t, t + 1, (execStep snap fs op).1, (execStep snap fs op).2.1⟩, ?_, ?_⟩
      · rw [execGo_cons_stop pol snap fs t i op rest hstop]
        exact List.mem_cons_self _ _
      · show (execStep snap fs op).1 ≠ Outcome.success
        rw [hwhy]
        exact fun hc => Outcome.noConfusion hc
    | false =>
      rcases ih (execStep snap fs op).2.2 (t + 2) (i + 1) with hl | ⟨e, he, hne⟩
      · left
        rw [execGo_cons_go pol snap fs t i op rest hstop]
        simp [hl]
      · right
        refine ⟨e, ?_, hne⟩
        rw [execGo_cons_go pol snap fs t i op rest hstop]
        exact List.mem_cons_of_mem _ he

theorem status_eq_success_iff (r : Result) :
    r.status = .success ↔ ∀ e ∈ r.ops, e.outcome = .success := by
  unfold Result.status
  by_cases h : r.ops.all (fun e => decide (e.outcome = Outcome.success)) = true
  · rw [if_pos h]
    simp only [List.all_eq_true, decide_eq_true_eq] at h
    exact ⟨fun _ => h, fun _ => rfl⟩
  · rw [if_neg h]
    constructor
    · intro hc
      exact Status.noConfusion hc
    · intro hall
      exfalso
      apply h
      simp only [List.all_eq_true, decide_eq_true_eq]
      exact hall

theorem status_partialFailure_of_failed (r : Result) (e : ExecutedOperation)
    (he : e ∈ r.ops) (why : FailReason) (hwhy : e.outcome = .failed why) :
    r.status = .partialFailure := by
  cases hst : r.status with
  | partialFailure => rfl
  | success =>
    exfalso
    have := (status_eq_success_iff r).mp hst e he
    rw [hwhy] at this
    exact Outcome.noConfusion this

/-- C1: execute() always hands the caller a Result: it is a total function of
the batch, the filesystem and the policy; every recorded outcome is Success or
a structured Failed reason (an execution-time precondition failure or one of
the expected primitive failure modes), and an operation is absent from the
list only when an earlier recorded failure stopped the batch — failures never
escape as anything other than per-operation Failed outcomes, even when every
operation fails. -/
theorem execute_total_records_failures (pol : Policy) (snap : Bool)
    (b : List Operation) (fs : FS) :
    ∃ r fsFinal, execute pol snap b fs = (r, fsFinal) ∧
      (∀ e ∈ r.ops, e.outcome = .success ∨ e.outcome = .failed .preconditionUnmet ∨
        ∃ io, e.outcome = .failed (.ioError io)) ∧
      (r.ops.length = b.length ∨ ∃ e ∈ r.ops, e.outcome ≠ .success) := by
  refine ⟨(execute pol snap b fs).1, (execute pol snap b fs).2, rfl, ?_, ?_⟩
  · intro e _
    cases h : e.outcome with
    | success => exact Or.inl rfl
    | failed why =>
      cases why with
      | preconditionUnmet => exact Or.inr (Or.inl rfl)
      | ioError io => exact Or.inr (Or.inr ⟨io, rfl⟩)
  · rw [execute_ops]
    exact execGo_length_or_failed pol snap b fs 0 0

/-- C2: the Result's status is Success exactly when every operation of the
batch was executed and every recorded outcome is Success; a failed outcome, or
an operation left unexecuted by the stop policy, makes it PartialFailure. -/
theorem status_success_iff_complete (pol : Policy) (snap : Bool)
    (b : List Operation) (fs : FS) :
    (execute pol snap b fs).1.status = .success ↔
      ((∀ e ∈ (execute pol snap b fs).1.ops, e.outcome = .success) ∧
        (execute pol snap b fs).1.ops.length = b.length) := by
  rw [status_eq_success_iff]
  constructor
  · intro hall
    refine ⟨hall, ?_⟩
    rw [execute_ops] at hall ⊢
    exact execGo_all_success_length pol snap b fs 0 0 hall
  · intro h
    exact h.1

/-- C3: under the stop-on-first-failure policy, if the operation at position i
(0-based; the claim's k is i + 1) is the first to fail, the ExecutedOperation
list has exactly i + 1 entries, each entry at position j references batch
operation j, the remaining operations are absent, and the status is
PartialFailure. -/
theorem stop_truncates_at_first_failure (snap : Bool) (b : List Operation)
    (fs : FS) (i : Nat) (e : ExecutedOperation) (why : FailReason)
    (hi : (execute .stop snap b fs).1.ops.get? i = some e)
    (hfail : e.outcome = .failed why)
    (hfirst : ∀ j e2, j < i → (execute .stop snap b fs).1.ops.get? j = some e2 →
      e2.outcome = .success) :
    (execute .stop snap b fs).1.ops.length = i + 1 ∧
    (∀ j e2, (execute .stop snap b fs).1.ops.get? j = some e2 → e2.opIndex = j) ∧
    (execute .stop snap b fs).1.status = .partialFailure := by
  refine ⟨?_, ?_, ?_⟩
  · rw [execute_ops] at hi ⊢
    exact execGo_stop_failed_last snap b fs 0 0 i e why hi hfail
  · intro j e2 hj
    rw [execute_ops] at hj
    have := execGo_opIndex .stop snap b fs 0 0 j e2 hj
    omega
  · exact status_partialFailure_of_failed _ e (List.get?_mem hi) why hfail

/-- C3 witness: the theorem applied to failBatch, whose single Copy fails its
precondition re-check on the empty filesystem at position 0. -/
theorem stop_truncates_witness :
    ((execute .stop false failBatch fsEmpty).1.ops.get? 0 =
        some ⟨0, 0, 1, .failed .preconditionUnmet, .noUndo⟩ ∧
      (⟨0, 0, 1, .failed .preconditionUnmet, .noUndo⟩ :
        ExecutedOperation).outcome = .failed .preconditionUnmet ∧
      (∀ j e2, j < 0 → (execute .stop false failBatch fsEmpty).1.ops.get? j = some e2 →
        e2.outcome = .success)) ∧
    ((execute .stop false failBatch fsEmpty).1.ops.length = 0 + 1 ∧
      (∀ j e2, (execute .stop false failBatch fsEmpty).1.ops.get? j = some e2 →
        e2.opIndex = j) ∧
      (execute .stop false failBatch fsEmpty).1.status = .partialFailure) :=
  ⟨⟨by decide, rfl, fun j e2 hj _ => absurd hj (Nat.not_lt_zero j)⟩,
    stop_truncates_at_first_failure false failBatch fsEmpty 0
      ⟨0, 0, 1, .failed .preconditionUnmet, .noUndo⟩ .preconditionUnmet
      (by decide) rfl (fun j e2 hj _ => absurd hj (Nat.not_lt_zero j))⟩

theorem revertGo_map_opIndex :
    ∀ (l : List ExecutedOperation) (fs : FS),
    (revertGo fs l).1.map RevertItem.opIndex = l.map ExecutedOperation.opIndex := by
  intro l
  induction l with
  | nil => intro fs; rfl
  | cons e rest ih =>
    intro fs
    simp only [revertGo, List.map_cons, ih]

/-- C7: revert(result) replays the captured UndoTokens in strict reverse order
of the ExecutedOperation list, regardless of the Result's origin (so of the
failure policy used at execution time); concretely, for the batch CreateDir a
then Copy f to a/f executed successfully on a filesystem where a and a/f did
not pre-exist, revert first removes a/f and then removes a, restoring the
pre-batch filesystem state. -/
theorem revert_reverse_order_roundtrip :
    (∀ (r : Result) (fs : FS),
      (revert r fs).1.map RevertItem.opIndex =
        (r.ops.map ExecutedOperation.opIndex).reverse) ∧
    ((execute .stop false roundBatch fsWithF).1.status = .success ∧
      (execute .stop false roundBatch fsWithF).2 =
        { files := [segAF, segF], dirs := [segA], denied := [], full := false } ∧
      revert (execute .stop false roundBatch fsWithF).1
          (execute .stop false roundBatch fsWithF).2 =
        ([⟨1, .success⟩, ⟨0, .success⟩], fsWithF)) := by
  constructor
  · intro r fs
    rw [revert, revertGo_map_opIndex, List.map_reverse]
  · refine ⟨?_, ?_, ?_⟩ <;> decide

/-- C10: Batch.append records the immutable operation value and returns an
OperationHandle — the position of the recorded declaration — rather than the
operation object itself; the handle resolves to the recorded operation, and
still resolves to it after further appends. -/
theorem append_returns_positional_handle (b : Batch) (op : Operation) :
    (b.append op).2 = ⟨b.ops.length⟩ ∧
    (b.append op).1.resolve (b.append op).2 = some op ∧
    (∀ op2, ((b.append op).1.append op2).1.resolve (b.append op).2 = some op) := by
  refine ⟨rfl, ?_, ?_⟩
  · show (b.ops ++ [op]).get? b.ops.length = some op
    exact List.get?_concat_length b.ops op
  · intro op2
    show ((b.ops ++ [op]) ++ [op2]).get? b.ops.length = some op
    rw [List.get?_append (by simp [List.length_append])]
    exact List.get?_concat_length b.ops op

end SynthFS
